/-
Verification of the biography/interview engine against its specification.

The Python sources are embedded shallowly: pure functions become Lean
functions, mutation of the section tree becomes functional update, fallible
code returns `Except PyErr`.  Machine-level details (uuid generation,
timestamps) are threaded as explicit parameters.
-/
import Mathlib

set_option maxRecDepth 10000

/-- Python exceptions that the embedded code can raise. -/
inductive PyErr where
  | indexError : PyErr
  | keyError : PyErr
  | valueError : String → PyErr
  deriving Repr, DecidableEq

/-- Accumulating walk for whitespace splitting (`acc` holds the current
word reversed). -/
def splitWsAux : List Char → List Char → List String
  | [], acc => if acc.isEmpty then [] else [String.mk acc.reverse]
  | c :: rest, acc =>
    if c.isWhitespace then
      (if acc.isEmpty then [] else [String.mk acc.reverse]) ++ splitWsAux rest []
    else splitWsAux rest (c :: acc)

/-- Python `str.split()` with no separator: split on whitespace runs,
dropping empty pieces. -/
def pySplitWs (s : String) : List String :=
  splitWsAux s.data []

/-- Accumulating walk for single-character splitting. -/
def splitCharAux (sep : Char) : List Char → List Char → List String
  | [], acc => [String.mk acc.reverse]
  | c :: rest, acc =>
    if c = sep then String.mk acc.reverse :: splitCharAux sep rest []
    else splitCharAux sep rest (c :: acc)

/-- Python `str.split(sep)` for a one-character separator (`""` yields
`[""]`, as in Python). -/
def pySplitChar (s : String) (sep : Char) : List String :=
  splitCharAux sep s.data []

/-- Whether `pat` is an initial segment of `l`. -/
def charsBeginWith : List Char → List Char → Bool
  | [], _ => true
  | _ :: _, [] => false
  | p :: ps, c :: cs => p = c && charsBeginWith ps cs

/-- Python `str.startswith`. -/
def pyStartsWith (s pat : String) : Bool :=
  charsBeginWith pat.data s.data

/-- Python `str.endswith`. -/
def pyEndsWith (s pat : String) : Bool :=
  charsBeginWith pat.data.reverse s.data.reverse

/-- Python `sep in s` for one character. -/
def containsChar (s : String) (c : Char) : Bool :=
  s.data.elem c

/-- Left-to-right non-overlapping deletion of every occurrence of a
(nonempty) pattern: Python `s.replace(pat, '')`.  The fuel only serves
structural termination. -/
def removeAllAux (pat : List Char) : Nat → List Char → List Char
  | 0, l => l
  | _ + 1, [] => []
  | fuel + 1, c :: rest =>
    if charsBeginWith pat (c :: rest) then removeAllAux pat fuel ((c :: rest).drop pat.length)
    else c :: removeAllAux pat fuel rest

/-- Python `s.replace(pat, '')` for a nonempty pattern. -/
def pyRemoveAll (s pat : String) : String :=
  String.mk (removeAllAux pat.data (s.length + 1) s.data)

/-- Python `str.strip()` with no argument: drop surrounding whitespace. -/
def pyStrip (s : String) : String :=
  String.mk (((s.data.dropWhile Char.isWhitespace).reverse.dropWhile
    Char.isWhitespace).reverse)

/-- Numeric value of a digit string (callers guard with `isdigit`). -/
def digitsToNat (l : List Char) : Nat :=
  l.foldl (fun a c => a * 10 + (c.toNat - 48)) 0

/-- Python `str.isdigit()` (restricted to ASCII digits): nonempty and all
characters are digits. -/
def pyIsDigit (s : String) : Bool :=
  s ≠ "" && s.data.all Char.isDigit

/-- Number of occurrences of a character in a string, Python `s.count(c)`. -/
def countChar (s : String) (c : Char) : Nat :=
  s.data.count c

/-- A character matched by the regex class `[\w-]` (ASCII fragment of
Python `\w` plus the hyphen). -/
def isWordHyphen (c : Char) : Bool :=
  c.isAlphanum || c = '_' || c = '-'

/-- Attempt to match the regex tail `MEM_[\w-]+\]` directly after an opening
bracket; on success return the captured id `MEM_…` and the characters after
the closing bracket.  Mirrors `\[(MEM_[\w-]+)\]` from
`Section.extract_memory_ids`. -/
def memTokenBody (l : List Char) : Option (String × List Char) :=
  match l with
  | 'M' :: 'E' :: 'M' :: '_' :: rest =>
    let run := rest.takeWhile isWordHyphen
    if run.isEmpty then none
    else
      match rest.drop run.length with
      | ']' :: rest' => some (String.mk ('M' :: 'E' :: 'M' :: '_' :: run), rest')
      | _ => none
  | _ => none

/-- Left-to-right non-overlapping scan for `\[(MEM_[\w-]+)\]`, the semantics
of `re.findall`.  The fuel argument (instantiated with more than the input
length) only serves structural termination; every step consumes at least one
character. -/
def scanMemTokens : Nat → List Char → List String
  | 0, _ => []
  | _ + 1, [] => []
  | fuel + 1, c :: rest =>
    if c = '[' then
      match memTokenBody rest with
      | some (tok, rest') => tok :: scanMemTokens fuel rest'
      | none => scanMemTokens fuel rest
    else scanMemTokens fuel rest

/-- `dict.fromkeys` de-duplication: keep the first occurrence of each
element, preserving order. -/
def dedupKeepFirst : List String → List String → List String
  | [], _ => []
  | x :: xs, seen =>
    if x ∈ seen then dedupKeepFirst xs seen else x :: dedupKeepFirst xs (x :: seen)

/-- `Section.extract_memory_ids`: all unique ids matching
`\[(MEM_[\w-]+)\]` in content, in order of first occurrence. -/
def extract_memory_ids (content : String) : List String :=
  if content = "" then []
  else dedupKeepFirst (scanMemTokens (content.length + 1) content.data) []

/-- Attempt to match the regex tail `[\w-]+\]` after an opening bracket;
used by the `re.sub(r'\[([\w-]+)\]', '', …)` calls.  Returns the characters
after the closing bracket on success. -/
def bracketTokenEnd (l : List Char) : Option (List Char) :=
  let run := l.takeWhile isWordHyphen
  if run.isEmpty then none
  else
    match l.drop run.length with
    | ']' :: rest' => some rest'
    | _ => none

/-- Left-to-right non-overlapping deletion of every `\[([\w-]+)\]` match,
the semantics of `re.sub(pattern, '', s)`. -/
def stripBracketTokens : Nat → List Char → List Char
  | 0, l => l
  | _ + 1, [] => []
  | fuel + 1, c :: rest =>
    if c = '[' then
      match bracketTokenEnd rest with
      | some rest' => stripBracketTokens fuel rest'
      | none => c :: stripBracketTokens fuel rest
    else c :: stripBracketTokens fuel rest

/-- `re.sub(r'\[([\w-]+)\]', '', s)` as used by `get_section` and
`export_to_markdown`. -/
def stripMemoryLinks (s : String) : String :=
  String.mk (stripBracketTokens (s.length + 1) s.data)

/-- A node of the biography tree (`Section` in `biography.py`).  The
`subsections` dict is an insertion-ordered association list, as in Python. -/
inductive Sec : Type where
  | node (uuid title content createdAt lastEdit : String)
      (memoryIds : List String) (subsections : List (String × Sec)) : Sec
  deriving Repr

def Sec.uuid : Sec → String
  | .node u _ _ _ _ _ _ => u

def Sec.title : Sec → String
  | .node _ t _ _ _ _ _ => t

def Sec.content : Sec → String
  | .node _ _ c _ _ _ _ => c

def Sec.createdAt : Sec → String
  | .node _ _ _ ca _ _ _ => ca

def Sec.lastEdit : Sec → String
  | .node _ _ _ _ le _ _ => le

def Sec.memoryIds : Sec → List String
  | .node _ _ _ _ _ m _ => m

def Sec.subsections : Sec → List (String × Sec)
  | .node _ _ _ _ _ _ subs => subs

def Sec.withContent : Sec → String → Sec
  | .node u t _ ca le m subs, c => .node u t c ca le m subs

def Sec.withTitle : Sec → String → Sec
  | .node u _ c ca le m subs, t => .node u t c ca le m subs

def Sec.withLastEdit : Sec → String → Sec
  | .node u t c ca _ m subs, le => .node u t c ca le m subs

def Sec.withSubsections : Sec → List (String × Sec) → Sec
  | .node u t c ca le m _, subs => .node u t c ca le m subs

/-- `Section.update_memory_ids`: extend `memory_ids` with the ids found in
the current content that are not already present; never removes ids. -/
def Sec.update_memory_ids : Sec → Sec
  | .node u t c ca le m subs =>
    let found := extract_memory_ids c
    .node u t c ca le (m ++ found.filter (fun x => !(m.contains x))) subs

/-- `Section.__init__`: fresh node with the given uuid and timestamp, empty
subsections, and `memory_ids` seeded from the content. -/
def Sec.create (uuid now title content : String) : Sec :=
  Sec.update_memory_ids (.node uuid title content now now [] [])

/-- Python dict lookup `subs[k]` (keys are unique by construction). -/
def dictGet : List (String × Sec) → String → Option Sec
  | [], _ => none
  | (k', v) :: rest, k => if k' = k then some v else dictGet rest k

/-- Python dict assignment `subs[k] = v`: replace in place if the key
exists, else append preserving insertion order. -/
def dictSet : List (String × Sec) → String → Sec → List (String × Sec)
  | [], k, v => [(k, v)]
  | (k', v') :: rest, k, v =>
    if k' = k then (k, v) :: rest else (k', v') :: dictSet rest k v

/-- Python `subs.pop(k)`: value plus the remaining dict. -/
def dictPop : List (String × Sec) → String → Option (Sec × List (String × Sec))
  | [], _ => none
  | (k', v) :: rest, k =>
    if k' = k then some (v, rest)
    else (dictPop rest k).map (fun p => (p.1, (k', v) :: p.2))

/-- Python `del subs[k]` for a key known to be present. -/
def dictDel : List (String × Sec) → String → List (String × Sec)
  | [], _ => []
  | (k', v) :: rest, k => if k' = k then rest else (k', v) :: dictDel rest k

/-- `Biography._is_valid_subsection_number`.  The Python `try/except
(IndexError, ValueError)` catches the empty-split case and yields `False`. -/
def is_valid_subsection_number (parent child : String) : Bool :=
  match pySplitWs parent, pySplitWs child with
  | parentNum :: _, childNum :: _ =>
    if pyIsDigit parentNum then
      countChar childNum '.' = 1 && pyStartsWith childNum (parentNum ++ ".")
    else if containsChar parentNum '.' then
      countChar childNum '.' = 2 && pyStartsWith childNum (parentNum ++ ".")
    else false
  | _, _ => false

/-- Consecutive-pair check of the validation loop
`for i in range(1, len(parts)): _is_valid_subsection_number(parts[i-1], parts[i])`. -/
def adjPairsOk : List String → Bool
  | a :: b :: rest => is_valid_subsection_number a b && adjPairsOk (b :: rest)
  | _ => true

/-- `Biography.is_valid_path_format`.  The unguarded `parts[0].split()[0]`
raises `IndexError` when the first segment has no non-space character. -/
def is_valid_path_format (path : String) : Except PyErr Bool :=
  if path = "" then .ok true
  else
    let parts := pySplitChar path '/'
    if parts.length > 3 then .ok false
    else
      match pySplitWs (parts.headD "") with
      | [] => .error .indexError
      | w :: _ =>
        if !(pyIsDigit w) then .ok false
        else .ok (adjPairsOk parts)

/-- `_sort_sections.get_sort_key`: numeric parts of the dotted prefix of the
first word of a title.  `title.split()[0]` raises `IndexError` on an
all-space title. -/
def sortKey (title : String) : Except PyErr (List Nat) :=
  match pySplitWs title with
  | [] => .error .indexError
  | w :: _ =>
    .ok ((pySplitChar w '.').filterMap
      (fun p => if pyIsDigit p then some (digitsToNat p.data) else none))

/-- Lexicographic `<` on integer tuples, as Python compares sort keys. -/
def keyLt : List Nat → List Nat → Bool
  | [], [] => false
  | [], _ :: _ => true
  | _ :: _, [] => false
  | a :: as, b :: bs => if a < b then true else if b < a then false else keyLt as bs

/-- Pair every entry with its sort key, propagating a key-computation
error as Python `sorted` would. -/
def attachKeys : List (String × Sec) → Except PyErr (List ((String × Sec) × List Nat))
  | [] => .ok []
  | (k, v) :: rest =>
    match sortKey k with
    | .error e => .error e
    | .ok key =>
      match attachKeys rest with
      | .error e => .error e
      | .ok tail => .ok (((k, v), key) :: tail)

/-- Stable insertion after all entries whose key is not greater: an element
arriving later is placed after earlier elements with an equal key, matching
the stability of Python `sorted`. -/
def insertStable (p : (String × Sec) × List Nat) :
    List ((String × Sec) × List Nat) → List ((String × Sec) × List Nat)
  | [] => [p]
  | q :: qs => if keyLt p.2 q.2 then p :: q :: qs else q :: insertStable p qs

/-- `Biography._sort_sections`: stable ascending sort of a subsections dict
by the numeric prefix of each key. -/
def sort_sections (subs : List (String × Sec)) : Except PyErr (List (String × Sec)) :=
  match attachKeys subs with
  | .error e => .error e
  | .ok keyed => .ok ((keyed.foldl (fun acc p => insertStable p acc) []).map (fun p => p.1))

/-- Walk a key path through nested subsection dicts; `[]` addresses the node
itself.  This is the lookup loop of `Biography._get_section_by_path`. -/
def getAt : Sec → List String → Option Sec
  | s, [] => some s
  | s, k :: rest =>
    match dictGet s.subsections k with
    | some c => getAt c rest
    | none => none

/-- Apply `f` to the node addressed by the key path (identity when the path
does not exist), the functional image of Python's in-place mutation of a
node reached by reference. -/
def modifyAt (s : Sec) (kp : List String) (f : Sec → Sec) : Sec :=
  match kp with
  | [] => f s
  | k :: rest =>
    s.withSubsections
      (s.subsections.map (fun p => if p.1 = k then (p.1, modifyAt p.2 rest f) else p))

mutual
/-- Depth-first search of `Biography._get_section_by_title`, returning the
key path of the first node whose title matches (`[]` = the node itself): the
node's own title is checked before its children are explored, in order. -/
def find_by_title (s : Sec) (t : String) : Option (List String) :=
  match s with
  | .node _ tt _ _ _ _ subs =>
    if tt = t then some [] else findTitleList subs t
/-- Child-list walk of `_get_section_by_title._search`. -/
def findTitleList (l : List (String × Sec)) (t : String) : Option (List String) :=
  match l with
  | [] => none
  | (k, c) :: rest =>
    match find_by_title c t with
    | some kp => some (k :: kp)
    | none => findTitleList rest t
end

mutual
/-- Depth-first search of `Biography._find_parent`, returning the key path
of the parent of the first subsection ENTRY whose key matches the title:
for each child entry the key is compared first (a match makes the current
node the parent), then the child's subtree is explored before the next
sibling, exactly the order of the Python `_search`. -/
def find_parent (s : Sec) (t : String) : Option (List String) :=
  match s with
  | .node _ _ _ _ _ _ subs => findParentList subs t
/-- Child-list walk of `_find_parent._search`. -/
def findParentList (l : List (String × Sec)) (t : String) : Option (List String) :=
  match l with
  | [] => none
  | (k, c) :: rest =>
    if k = t then some []
    else
      match (find_parent c t).map (fun kp => k :: kp) with
      | some kp => some kp
      | none => findParentList rest t
end

/-- Locate the section addressed by a path: the validation and walk of
`Biography._get_section_by_path`, returning a key path. -/
def locateByPath (root : Sec) (p : String) : Except PyErr (Option (List String)) :=
  if p = "" then .ok (some [])
  else
    match is_valid_path_format p with
    | .error e => .error e
    | .ok false =>
      .error (.valueError ("Invalid path format: " ++ p ++
        ". Path must follow the required format rules."))
    | .ok true =>
      let parts := pySplitChar p '/'
      .ok (if (getAt root parts).isSome then some parts else none)

/-- Argument handling shared by `get_section`: either-path-or-title
requirement, the truthiness-guarded `path.endswith(title)` check, then
lookup by path or by depth-first title search. -/
def locate (root : Sec) (pathO titleO : Option String) :
    Except PyErr (Option (List String)) :=
  match pathO, titleO with
  | none, none =>
    .error (.valueError "Must provide either path or title to get a section")
  | _, _ =>
    let clash :=
      match pathO, titleO with
      | some p, some t => p ≠ "" && t ≠ "" && !(pyEndsWith p t)
      | _, _ => false
    if clash then .error (.valueError "Path and title must match to get a section")
    else
      match pathO with
      | some p => locateByPath root p
      | none =>
        match titleO with
        | some t => .ok (find_by_title root t)
        | none => .ok none

/-- Strip citation brackets from a node's content, the in-place
`section.content = re.sub(r'\[([\w-]+)\]', '', section.content)`. -/
def stripContentF (s : Sec) : Sec :=
  s.withContent (stripMemoryLinks s.content)

/-- `Biography.get_section`: returns the found section as the caller sees it
together with the tree after the call (the source mutates the stored node in
place when `hide_memory_links` is true). -/
def get_section (root : Sec) (pathO titleO : Option String)
    (hideMemoryLinks : Bool) : Except PyErr (Option Sec × Sec) :=
  match locate root pathO titleO with
  | .error e => .error e
  | .ok none => .ok (none, root)
  | .ok (some kp) =>
    match getAt root kp with
    | none => .ok (none, root)
    | some sec =>
      if hideMemoryLinks then
        .ok (some (stripContentF sec), modifyAt root kp stripContentF)
      else .ok (some sec, root)

/-- The mutation applied by `update_section` when `content is not None`:
set content, refresh `last_edit`, integrate newly cited memory ids. -/
def contentUpdateF (contentO : Option String) (now : String) (s : Sec) : Sec :=
  match contentO with
  | some c => Sec.update_memory_ids ((s.withContent c).withLastEdit now)
  | none => s

/-- `Biography.update_section`.  Mirrors the source: argument checks, the
root special case for `path == ""` (which does NOT refresh memory ids), the
content update on the located node, and the title move through
`_find_parent`/`pop`/re-insert/sort.  Returns the section the source
returns together with the updated tree. -/
def update_section (root : Sec) (pathO titleO contentO newTitleO : Option String)
    (now : String) : Except PyErr (Option Sec × Sec) :=
  match pathO, titleO with
  | none, none => .error (.valueError "Must provide either path or title")
  | _, _ =>
    let clash :=
      match pathO, titleO with
      | some p, some t => p ≠ "" && t ≠ "" && !(pyEndsWith p t)
      | _, _ => false
    if clash then .error (.valueError "Path and title must match to update a section")
    else if pathO = some "" then
      let root₁ :=
        match contentO with
        | some c => (root.withContent c).withLastEdit now
        | none => root
      let root₂ :=
        match newTitleO with
        | some nt => if nt ≠ "" then root₁.withTitle nt else root₁
        | none => root₁
      .ok (some root₂, root₂)
    else
      match locate root pathO titleO with
      | .error e => .error e
      | .ok none => .ok (none, root)
      | .ok (some kp) =>
        match getAt root kp with
        | none => .ok (none, root)
        | some sec =>
          let sec₁ := contentUpdateF contentO now sec
          let root₁ := modifyAt root kp (contentUpdateF contentO now)
          match newTitleO with
          | none => .ok (some sec₁, root₁)
          | some nt =>
            if nt = "" || nt = sec₁.title then .ok (some sec₁, root₁)
            else
              match find_parent root₁ sec₁.title with
              | some pkp =>
                match getAt root₁ pkp with
                | none => .error .keyError
                | some parent =>
                  match dictPop parent.subsections sec₁.title with
                  | none => .error .keyError
                  | some (popped, remaining) =>
                    let popped' := popped.withTitle nt
                    match sort_sections (dictSet remaining nt popped') with
                    | .error e => .error e
                    | .ok sorted =>
                      .ok (some popped',
                        modifyAt root₁ pkp (fun par => par.withSubsections sorted))
              | none =>
                .ok (some (sec₁.withTitle nt), modifyAt root₁ kp (fun s => s.withTitle nt))

/-- The creation walk of `Biography.add_section`: descend along the parent
segments, creating missing parents with empty content (consuming a fresh
uuid each), then insert the new section at the final segment and sort that
parent's subsections.  Returns the new section and the updated subtree. -/
def addWalk (s : Sec) (parts : List String) (content : String)
    (uuids : List String) (now : String) : Except PyErr (Sec × Sec) :=
  match parts with
  | [] => .error (.valueError "empty path")
  | [title] =>
    let newSec := Sec.create (uuids.headD "uuid") now title content
    match sort_sections (dictSet s.subsections title newSec) with
    | .error e => .error e
    | .ok sorted => .ok (newSec, s.withSubsections sorted)
  | k :: rest =>
    let found := dictGet s.subsections k
    let child :=
      match found with
      | some c => c
      | none => Sec.create (uuids.headD "uuid") now k ""
    let uuids' := if found.isSome then uuids else uuids.tail
    match addWalk child rest content uuids' now with
    | .error e => .error e
    | .ok (newSec, child') => .ok (newSec, s.withSubsections (dictSet s.subsections k child'))

/-- `Biography.add_section`: empty-path and format guards, then the creation
walk.  `uuids` supplies the identifiers `uuid.uuid4()` would mint and `now`
the timestamps. -/
def add_section (root : Sec) (path content : String) (uuids : List String)
    (now : String) : Except PyErr (Sec × Sec) :=
  if path = "" then
    .error (.valueError "Path cannot be empty - must provide a section path")
  else
    match is_valid_path_format path with
    | .error e => .error e
    | .ok false =>
      .error (.valueError ("Invalid path format: " ++ path ++
        ". Path must follow the required format rules."))
    | .ok true => addWalk root (pySplitChar path '/') content uuids now

/-- `Biography.delete_section`.  The lookup goes through `get_section` with
its default `hide_memory_links=True`, so the located node's content is
stripped in the tree before anything else; the parent is then found by
title-key search and the entry removed — together with its whole subtree. -/
def delete_section (root : Sec) (pathO titleO : Option String) :
    Except PyErr (Bool × Sec) :=
  match pathO, titleO with
  | none, none =>
    .error (.valueError "Must provide either path or title to delete a section")
  | _, _ =>
    if pathO = some "" then .error (.valueError "Cannot delete root section")
    else
      match locate root pathO titleO with
      | .error e => .error e
      | .ok none => .ok (false, root)
      | .ok (some kp) =>
        match getAt root kp with
        | none => .ok (false, root)
        | some sec =>
          let root₁ := modifyAt root kp stripContentF
          let t := sec.title
          if kp = [] then .error (.valueError "Cannot delete root section")
          else
            match find_parent root₁ t with
            | some pkp =>
              .ok (true, modifyAt root₁ pkp
                (fun par => par.withSubsections (dictDel par.subsections t)))
            | none => .ok (false, root₁)

/-- Value of a digit run with Python's underscore rule: an underscore must
sit between two digits.  `acc` is the value of the digits already read. -/
def digitsVal : List Char → Nat → Option Nat
  | [], acc => some acc
  | c :: rest, acc =>
    if c.isDigit then digitsVal rest (acc * 10 + (c.toNat - 48))
    else if c = '_' then
      match rest with
      | d :: rest' =>
        if d.isDigit then digitsVal rest' (acc * 10 + (d.toNat - 48)) else none
      | [] => none
    else none

/-- Unsigned part of Python `int(str)`: at least one digit, underscores only
between digits. -/
def parseUnsigned : List Char → Option Nat
  | [] => none
  | c :: rest => if c.isDigit then digitsVal rest (c.toNat - 48) else none

/-- Python `int(s)` on a decimal string: surrounding whitespace stripped,
optional sign, digits with underscore separators; `none` models the
`ValueError` branch. -/
def pyInt (s : String) : Option Int :=
  match (pyStrip s).data with
  | '-' :: rest => (parseUnsigned rest).map (fun n => -(n : Int))
  | '+' :: rest => (parseUnsigned rest).map (fun n => (n : Int))
  | l => (parseUnsigned l).map (fun n => (n : Int))

/-- The filename mangling of `Biography._get_next_version`:
`file.replace('biography_', '').replace('.json', '')` — each `replace`
deletes EVERY occurrence of its pattern. -/
def versionStem (f : String) : String :=
  pyRemoveAll (pyRemoveAll f "biography_") ".json"

/-- `Biography._get_next_version` over the directory listing: keep files
matching the `biography_*.json` shape, parse each mangled stem as an int
(`ValueError` skips the file), and return `max + 1`, or `1` when nothing
parsed or no file matched. -/
def get_next_version (files : List String) : Int :=
  let bioFiles := files.filter
    (fun f => pyStartsWith f "biography_" && pyEndsWith f ".json")
  if bioFiles.isEmpty then 1
  else
    match bioFiles.filterMap (fun f => pyInt (versionStem f)) with
    | [] => 1
    | v :: vs => (vs.foldl max v) + 1

/-- The claim's reading of the version scan, for comparison with
`get_next_version`: a file contributes version `V` exactly when its name is
literally `biography_<V>.json` for a decimal `<V>`; other suffixes are
ignored. -/
def claimVersions (files : List String) : List Int :=
  files.filterMap (fun f =>
    if pyStartsWith f "biography_" && pyEndsWith f ".json" then
      let mid := String.mk ((f.data.drop 10).take (f.data.length - 15))
      if pyIsDigit mid then some ((digitsToNat mid.data : Nat) : Int) else none
    else none)

/-- Next version as the claim describes it: `max(claim versions) + 1`, or
`1` when no file parses. -/
def claimNextVersion (files : List String) : Int :=
  match claimVersions files with
  | [] => 1
  | v :: vs => (vs.foldl max v) + 1

/-- Outcome of one `invoke_engine` attempt as seen by
`BaseAgent._call_engine`: a returned output or a raised transport
exception (carried as text). -/
inductive AttemptResult where
  | ok : String → AttemptResult
  | exn : String → AttemptResult
  deriving Repr, DecidableEq

/-- What `_call_engine` delivers to its caller.  After the retry loop the
source executes `raise e`; Python deletes the `except … as e` binding at the
end of each handler, so that statement raises `UnboundLocalError` rather
than the stored exception. -/
inductive EngineOutcome where
  | returned : String → EngineOutcome
  | raisedUnboundLocalError : EngineOutcome
  deriving Repr, DecidableEq

/-- The retry loop of `BaseAgent._call_engine`: `attempt k` is the result of
the k-th `invoke_engine` call (0-based); the returned list collects the
`time.sleep(2 ** attempt)` durations in order. -/
def call_engine_loop (attempt : Nat → AttemptResult) :
    Nat → Nat → List Nat → EngineOutcome × List Nat
  | _, 0, sleeps => (.raisedUnboundLocalError, sleeps)
  | k, r + 1, sleeps =>
    match attempt k with
    | .ok out => (.returned out, sleeps)
    | .exn _ => call_engine_loop attempt (k + 1) r (sleeps ++ [2 ^ k])

/-- `BaseAgent._call_engine`: `for attempt in range(10)`. -/
def call_engine (attempt : Nat → AttemptResult) : EngineOutcome × List Nat :=
  call_engine_loop attempt 0 10 []

/-- Modelled from the spec: the message type of `session_models.py` (the
file is not under `src/`): `conversation | skip | like`. -/
inductive MessageType where
  | conversation : MessageType
  | skip : MessageType
  | like : MessageType
  deriving Repr, DecidableEq

/-- Modelled from the spec: the router `Message` record of
`session_models.py` (the file is not under `src/`): id, type, role,
content, timestamp. -/
structure Message where
  mid : String
  mtype : MessageType
  role : String
  content : String
  timestamp : String
  deriving Repr, DecidableEq

/-- `SessionScribe.on_message`: returns the new
`_last_interviewer_message` and the Q/A pair handed to
`_process_qa_pair` when one is spawned.  An Interviewer message is stored;
a User message spawns a pair and clears the stored message only when one
is pending; other roles are ignored. -/
def scribe_on_message (lastInterviewerMessage : Option Message)
    (message : Message) : Option Message × Option (Message × Message) :=
  if message.role = "Interviewer" then (some message, none)
  else if message.role = "User" then
    match lastInterviewerMessage with
    | some im => (none, some (im, message))
    | none => (none, none)
  else (lastInterviewerMessage, none)

/-- Fold `scribe_on_message` over a message stream, accumulating the
spawned Q/A pairs in order. -/
def scribe_step (st : Option Message × List (Message × Message))
    (m : Message) : Option Message × List (Message × Message) :=
  let r := scribe_on_message st.1 m
  (r.1, st.2 ++ (match r.2 with | some p => [p] | none => []))

/-- State of the scribe after a whole stream, starting from the initial
`_last_interviewer_message = None` and no spawned pairs. -/
def scribe_process (ms : List Message) : Option Message × List (Message × Message) :=
  ms.foldl scribe_step (none, [])

/-- Modelled from the spec: the `Memory` record of
`content/memory_bank/memory.py` (the file is not under `src/`): stable id,
title, text, importance, session of creation.  Only its identity matters
for the session-scribe bookkeeping. -/
structure Memory where
  mid : String
  title : String
  text : String
  importance : Nat
  sessionId : Nat
  deriving Repr, DecidableEq

/-- The two memory lists kept by `SessionScribe`. -/
structure ScribeMemories where
  newMemories : List Memory
  allSessionMemories : List Memory
  deriving Repr, DecidableEq

/-- `SessionScribe._add_new_memory`: append to both lists. -/
def add_new_memory (st : ScribeMemories) (m : Memory) : ScribeMemories :=
  { newMemories := st.newMemories ++ [m],
    allSessionMemories := st.allSessionMemories ++ [m] }

/-- The waiting loop of `get_session_memories`: each observation pairs the
`processing_in_progress` flag read at the top of the loop with the elapsed
time `time.time() - start_time` read after the following 0.1 s sleep.  The
result counts the sleeps performed; `none` means the observation trace was
exhausted while the loop would still be running. -/
def waitLoop : List (Bool × ℚ) → Option Nat
  | [] => none
  | (flag, t) :: rest =>
    if flag = false then some 0
    else if t > 300 then some 1
    else (waitLoop rest).map (fun n => n + 1)

/-- `SessionScribe.get_session_memories`: optionally wait for processing,
select the unprocessed or the cumulative list, copy it, and optionally drain
the unprocessed list.  Returns the number of sleeps, the returned copy and
the state afterwards. -/
def get_session_memories (clearProcessed waitForProcessing includeProcessed : Bool)
    (obs : List (Bool × ℚ)) (st : ScribeMemories) :
    Option (Nat × List Memory × ScribeMemories) :=
  match (if waitForProcessing then waitLoop obs else some 0) with
  | none => none
  | some sleeps =>
    let memories := if includeProcessed then st.allSessionMemories else st.newMemories
    let st' := if clearProcessed then { st with newMemories := [] } else st
    some (sleeps, memories, st')

/-- The pending-task counter and flag of `SessionScribe`. -/
structure TaskCounter where
  pendingTasks : Int
  processingInProgress : Bool
  deriving Repr, DecidableEq

/-- `SessionScribe._increment_pending_tasks`. -/
def increment_pending_tasks (c : TaskCounter) : TaskCounter :=
  { pendingTasks := c.pendingTasks + 1, processingInProgress := true }

/-- `SessionScribe._decrement_pending_tasks`: clamps the counter at zero and
clears the flag exactly when the counter reaches (or would pass) zero. -/
def decrement_pending_tasks (c : TaskCounter) : TaskCounter :=
  let p := c.pendingTasks - 1
  if p ≤ 0 then { pendingTasks := 0, processingInProgress := false }
  else { pendingTasks := p, processingInProgress := c.processingInProgress }

/-- One lifecycle event of the counter. -/
inductive TaskOp where
  | inc : TaskOp
  | dec : TaskOp
  deriving Repr, DecidableEq

/-- Counter after a sequence of increments and decrements from the initial
state `(0, False)`. -/
def applyTaskOps (l : List TaskOp) : TaskCounter :=
  l.foldl
    (fun c op =>
      match op with
      | .inc => increment_pending_tasks c
      | .dec => decrement_pending_tasks c)
    { pendingTasks := 0, processingInProgress := false }

/-- The interview-session state touched by `add_message_to_chat_history`
and `_notify_participants`. -/
structure SessionState where
  sessionInProgress : Bool
  chatHistory : List Message
  subscriptions : List (String × List String)
  lastUserMessage : Option Message
  lastMessageTime : String
  userMessageCount : Nat
  checkInterval : Nat
  autoBiographyUpdateInProgress : Bool
  maxTurns : Option Nat
  feedbackLog : List (Message × Message)
  deriving Repr, DecidableEq

/-- `self._subscriptions.get(role, [])`. -/
def lookupRole : List (String × List String) → String → List String
  | [], _ => []
  | (r, subs) :: rest, role => if r = role then subs else lookupRole rest role

/-- `InterviewSession._notify_participants`: fan out to the role's
subscribers (each `on_message` task is created only while
`session_in_progress` holds), then the User-message bookkeeping: record the
last user message, bump the counter, possibly spawn a biography-update
check, and end the session when the turn cap is reached.  Returns the new
state, the subscribers notified, and whether a biography update check was
spawned. -/
def notify_participants (st : SessionState) (message : Message) :
    SessionState × List String × Bool :=
  let subscribers := lookupRole st.subscriptions message.role
  let deliveries := subscribers.filter (fun _ => st.sessionInProgress)
  if message.role = "User" then
    let st₁ := { st with lastUserMessage := some message,
                         userMessageCount := st.userMessageCount + 1 }
    let spawnBio := (st₁.userMessageCount % st₁.checkInterval = 0) &&
      !st₁.autoBiographyUpdateInProgress
    let st₂ :=
      match st₁.maxTurns with
      | some mt =>
        if st₁.userMessageCount ≥ mt then { st₁ with sessionInProgress := false }
        else st₁
      | none => st₁
    (st₂, deliveries, spawnBio)
  else (st, deliveries, false)

/-- `InterviewSession.add_message_to_chat_history`: the early return when
the session is not in progress, the fixed contents for skip/like, the
last-message bookkeeping, feedback logging (reading `chat_history[-1]`,
which raises `IndexError` on an empty history), and append-plus-fan-out for
skip and conversation messages.  The async `_notify_participants` task is
applied synchronously.  Returns the state, the notified subscribers and the
biography-update flag. -/
def add_message_to_chat_history (st : SessionState) (role content0 : String)
    (messageType : MessageType) (mid now : String) :
    Except PyErr (SessionState × List String × Bool) :=
  if st.sessionInProgress = false then .ok (st, [], false)
  else
    let content :=
      match messageType with
      | .skip => "Skip the question"
      | .like => "Like the question"
      | .conversation => content0
    let message : Message :=
      { mid := mid, mtype := messageType, role := role, content := content,
        timestamp := now }
    let st₁ :=
      if role = "User" then { st with lastMessageTime := now }
      else if role = "Interviewer" && st.lastUserMessage.isSome then
        { st with lastUserMessage := none }
      else st
    let feedbackStep : Except PyErr (List (Message × Message)) :=
      if messageType = .conversation then .ok st₁.feedbackLog
      else
        match st₁.chatHistory.getLast? with
        | none => .error .indexError
        | some prev => .ok (st₁.feedbackLog ++ [(prev, message)])
    match feedbackStep with
    | .error e => .error e
    | .ok flog =>
      let st₂ := { st₁ with feedbackLog := flog }
      if messageType = .skip || messageType = .conversation then
        let st₃ := { st₂ with chatHistory := st₂.chatHistory ++ [message] }
        let r := notify_participants st₃ message
        .ok r
      else .ok (st₂, [], false)

/-- A biography whose only top-level section is `1 Early Life`, with one
citation token in its content. -/
def sampleRoot : Sec :=
  .node "u0" "Biography of user" "" "t0" "t0" []
    [("1 Early Life", .node "id1" "1 Early Life" "hello [MEM_1]" "t1" "t1" ["MEM_1"] [])]

/-- A biography with a section `1 A` that has a child `1.1 B`. -/
def nestedRoot : Sec :=
  .node "u0" "Biography of user" "" "t0" "t0" []
    [("1 A", .node "id1" "1 A" "a content [MEM_1]" "t1" "t1" ["MEM_1"]
      [("1.1 B", .node "id2" "1.1 B" "b content" "t2" "t2" [] [])])]

theorem update_memory_ids_eq (s : Sec) :
    (Sec.update_memory_ids s).memoryIds =
      s.memoryIds ++
        (extract_memory_ids s.content).filter (fun x => !(s.memoryIds.contains x)) := by
  cases s
  rfl

theorem subset_update_memory_ids (s : Sec) :
    s.memoryIds ⊆ (Sec.update_memory_ids s).memoryIds := by
  rw [update_memory_ids_eq]
  exact List.subset_append_left _ _

theorem extract_mem_update_memory_ids (s : Sec) (x : String)
    (hx : x ∈ extract_memory_ids s.content) :
    x ∈ (Sec.update_memory_ids s).memoryIds := by
  rw [update_memory_ids_eq]
  by_cases h : x ∈ s.memoryIds
  · exact List.mem_append_left _ h
  · refine List.mem_append_right _ (List.mem_filter.mpr ⟨hx, ?_⟩)
    simp [List.contains, h]

theorem contentUpdateF_some (c now : String) (s : Sec) :
    contentUpdateF (some c) now s =
      Sec.update_memory_ids ((s.withContent c).withLastEdit now) := rfl

theorem content_withLastEdit (s : Sec) (le : String) :
    (s.withLastEdit le).content = s.content := by cases s; rfl

theorem content_withContent (s : Sec) (c : String) :
    (s.withContent c).content = c := by cases s; rfl

theorem memoryIds_withLastEdit (s : Sec) (le : String) :
    (s.withLastEdit le).memoryIds = s.memoryIds := by cases s; rfl

theorem memoryIds_withContent (s : Sec) (c : String) :
    (s.withContent c).memoryIds = s.memoryIds := by cases s; rfl

theorem update_tail_inv (root : Sec) (res : Except PyErr (Option (List String)))
    (C now : String) (sec root' : Sec)
    (h : (match res with
          | .error e => Except.error e
          | .ok none => Except.ok (none, root)
          | .ok (some kp) =>
            match getAt root kp with
            | none => Except.ok (none, root)
            | some s =>
              Except.ok (some (contentUpdateF (some C) now s),
                modifyAt root kp (contentUpdateF (some C) now))) = .ok (some sec, root')) :
    ∃ kp old, res = .ok (some kp) ∧ getAt root kp = some old ∧
      sec = contentUpdateF (some C) now old := by
  rcases res with e | kpO
  · cases h
  rcases kpO with _ | kp
  · simp at h
  simp only [] at h
  rcases hg : getAt root kp with _ | old
  · rw [hg] at h; simp at h
  · rw [hg] at h
    simp only [Except.ok.injEq, Prod.mk.injEq, Option.some.injEq] at h
    exact ⟨kp, old, rfl, hg, h.1.symm⟩

/-- Inversion of a successful content-only `update_section` through a
non-root address: the located section exists and the returned section is
the content update of it. -/
theorem update_section_inv (root : Sec) (pathO titleO : Option String)
    (C now : String) (sec root' : Sec)
    (hroot : pathO ≠ some "")
    (h : update_section root pathO titleO (some C) none now = .ok (some sec, root')) :
    ∃ kp old, locate root pathO titleO = .ok (some kp) ∧ getAt root kp = some old ∧
      sec = contentUpdateF (some C) now old := by
  unfold update_section at h
  rcases pathO with _ | p <;> rcases titleO with _ | t
  · cases h
  all_goals
    simp only [] at h
    repeat' split at h
  all_goals
    first
    | cases h
    | exact update_tail_inv _ _ _ _ _ _ h
    | (rw [if_neg hroot] at h
       exact update_tail_inv _ _ _ _ _ _ h)
    | (rw [if_neg (by decide : ¬(none : Option String) = some "")] at h
       exact update_tail_inv _ _ _ _ _ _ h)
    | exact absurd (by assumption) hroot
    | (solve | simp_all)
    | skip
  all_goals
    rename_i hLoc x s hGet
    exact ⟨_, _, hLoc, hGet, rfl⟩

/-- C2 — For every section updated through a non-root address with content
`C`, the resulting section's `memory_ids` contains every citation id
extracted from `C`, and the `memory_ids` of the addressed section before
the call survives into the result (ids are never removed).  The root
special case `path = ""` is excluded: it is the counterexample to the
claim as stated. -/
theorem update_section_citation_superset (root : Sec)
    (pathO titleO : Option String) (C now : String) (sec root' : Sec)
    (hroot : pathO ≠ some "")
    (h : update_section root pathO titleO (some C) none now = .ok (some sec, root')) :
    (∀ x ∈ extract_memory_ids C, x ∈ sec.memoryIds) ∧
    ∀ kp old, locate root pathO titleO = .ok (some kp) → getAt root kp = some old →
      old.memoryIds ⊆ sec.memoryIds := by
  obtain ⟨kp, old, hLoc, hGet, rfl⟩ :=
    update_section_inv root pathO titleO C now sec root' hroot h
  constructor
  · intro x hx
    rw [contentUpdateF_some]
    refine extract_mem_update_memory_ids _ x ?_
    rw [content_withLastEdit, content_withContent]
    exact hx
  · intro kp' old' hl hg
    rw [hLoc] at hl
    simp only [Except.ok.injEq, Option.some.injEq] at hl
    subst hl
    rw [hGet] at hg
    simp only [Option.some.injEq] at hg
    subst hg
    rw [contentUpdateF_some]
    intro x hx
    refine subset_update_memory_ids _ ?_
    rw [memoryIds_withLastEdit, memoryIds_withContent]
    exact hx

/-- C2 counterexample — updating the ROOT section through the empty path
with content that cites `MEM_9` succeeds but leaves the root's
`memory_ids` empty: the root special case of `update_section` never calls
`update_memory_ids`, so `memory_ids(S) ⊇ extract_tokens(C)` fails there. -/
theorem update_section_root_path_counterexample :
    update_section sampleRoot (some "") none (some "hi [MEM_9]") none "t9" =
      .ok (some (.node "u0" "Biography of user" "hi [MEM_9]" "t0" "t9" []
        [("1 Early Life",
          .node "id1" "1 Early Life" "hello [MEM_1]" "t1" "t1" ["MEM_1"] [])]),
        .node "u0" "Biography of user" "hi [MEM_9]" "t0" "t9" []
        [("1 Early Life",
          .node "id1" "1 Early Life" "hello [MEM_1]" "t1" "t1" ["MEM_1"] [])]) ∧
    extract_memory_ids "hi [MEM_9]" = ["MEM_9"] := ⟨rfl, rfl⟩

/-- C2 witness — a concrete successful content update through the path
`1 Early Life` puts the cited id into `memory_ids` and keeps the old id. -/
theorem update_section_citation_superset_witness :
    "MEM_7" ∈ (Sec.node "id1" "1 Early Life" "x [MEM_7]" "t1" "t9" ["MEM_1", "MEM_7"]
        [] : Sec).memoryIds ∧
    "MEM_1" ∈ (Sec.node "id1" "1 Early Life" "x [MEM_7]" "t1" "t9" ["MEM_1", "MEM_7"]
        [] : Sec).memoryIds := by
  have h := update_section_citation_superset sampleRoot (some "1 Early Life") none
    "x [MEM_7]" "t9"
    (.node "id1" "1 Early Life" "x [MEM_7]" "t1" "t9" ["MEM_1", "MEM_7"] [])
    (.node "u0" "Biography of user" "" "t0" "t0" []
      [("1 Early Life",
        .node "id1" "1 Early Life" "x [MEM_7]" "t1" "t9" ["MEM_1", "MEM_7"] [])])
    (by simp) rfl
  exact ⟨h.1 "MEM_7" (by decide),
    h.2 ["1 Early Life"]
      (.node "id1" "1 Early Life" "hello [MEM_1]" "t1" "t1" ["MEM_1"] [])
      rfl rfl (by decide)⟩

/-- C4 — `get_section` with `hide_memory_links=True` does NOT return a
copy: it writes the stripped content back into the stored node, so after
the call the tree itself has lost the `[MEM_1]` token (the returned tree
equals the stored one, both holding `"hello "`). -/
theorem get_section_hide_mutates_stored_content :
    get_section sampleRoot (some "1 Early Life") none true =
      .ok (some (.node "id1" "1 Early Life" "hello " "t1" "t1" ["MEM_1"] []),
        .node "u0" "Biography of user" "" "t0" "t0" []
          [("1 Early Life",
            .node "id1" "1 Early Life" "hello " "t1" "t1" ["MEM_1"] [])]) ∧
    (getAt sampleRoot ["1 Early Life"]).map Sec.content = some "hello [MEM_1]" ∧
    stripMemoryLinks "hello [MEM_1]" = "hello " := ⟨rfl, rfl, rfl⟩

/-- C7 — posting any message while the session is not in progress is a
silent no-op: no error, no chat-history append, no state change, zero
subscriber deliveries, no biography-update spawn. -/
theorem post_ignored_when_session_not_in_progress (st : SessionState)
    (role content0 : String) (messageType : MessageType) (mid now : String)
    (h : st.sessionInProgress = false) :
    add_message_to_chat_history st role content0 messageType mid now =
      .ok (st, [], false) := by
  unfold add_message_to_chat_history
  rw [h]
  simp

/-- A session state that is no longer in progress, with a nonempty history
and live subscriptions. -/
def endedState : SessionState :=
  { sessionInProgress := false
    chatHistory := [{ mid := "m0", mtype := .conversation, role := "Interviewer",
                      content := "hello", timestamp := "t0" }]
    subscriptions := [("Interviewer", ["SessionScribe", "User"]),
                      ("User", ["Interviewer", "SessionScribe"])]
    lastUserMessage := none
    lastMessageTime := "t0"
    userMessageCount := 3
    checkInterval := 2
    autoBiographyUpdateInProgress := false
    maxTurns := some 10
    feedbackLog := [] }

/-- C7 witness — a concrete User message posted into `endedState` is
dropped silently. -/
theorem post_ignored_when_session_not_in_progress_witness :
    add_message_to_chat_history endedState "User" "are you there?" .conversation
      "m1" "t1" = .ok (endedState, [], false) :=
  post_ignored_when_session_not_in_progress endedState "User" "are you there?"
    .conversation "m1" "t1" rfl

/-- C9 — the retry loop of `_call_engine` evaluated on concrete outcome
streams: ten consecutive transport failures sleep 1,2,…,512 seconds and
then raise `UnboundLocalError` (NOT the last transport exception, because
Python unbinds `e` when the `except` block ends); an attempt that succeeds
returns immediately with no further sleep. -/
theorem call_engine_retry_evaluation :
    call_engine (fun _ => .exn "ConnectionError") =
      (.raisedUnboundLocalError, [1, 2, 4, 8, 16, 32, 64, 128, 256, 512]) ∧
    call_engine (fun k => if k < 2 then .exn "ConnectionError" else .ok "output") =
      (.returned "output", [1, 2]) ∧
    call_engine (fun _ => .ok "output") = (.returned "output", []) :=
  ⟨rfl, rfl, rfl⟩

theorem scribe_process_append (ms : List Message) (m : Message) :
    scribe_process (ms ++ [m]) = scribe_step (scribe_process ms) m := by
  unfold scribe_process
  rw [List.foldl_append]
  rfl

theorem snoc_inj {α : Type} {l₁ l₂ : List α} {a b : α}
    (h : l₁ ++ [a] = l₂ ++ [b]) : l₁ = l₂ ∧ a = b := by
  have h2 := List.append_inj' h rfl
  exact ⟨h2.1, by simpa using h2.2⟩

/-- The stored `_last_interviewer_message` is `im` exactly when `im` is an
Interviewer message after which no further Interviewer or User message has
arrived. -/
theorem scribe_state_char (ms : List Message) (im : Message) :
    (scribe_process ms).1 = some im ↔
      ∃ xs ys, ms = xs ++ im :: ys ∧ im.role = "Interviewer" ∧
        ∀ m ∈ ys, m.role ≠ "Interviewer" ∧ m.role ≠ "User" := by
  induction ms using List.reverseRecOn with
  | nil =>
    simp only [scribe_process, List.foldl_nil]
    constructor
    · intro h; cases h
    · rintro ⟨xs, ys, hsplit, -⟩
      exact absurd hsplit.symm (by simp)
  | append_singleton ms m ih =>
    rw [scribe_process_append]
    unfold scribe_step scribe_on_message
    by_cases hI : m.role = "Interviewer"
    · rw [if_pos hI]
      simp only [Option.some.injEq]
      constructor
      · rintro rfl
        exact ⟨ms, [], rfl, hI, by simp⟩
      · rintro ⟨xs, ys, hsplit, hrole, hys⟩
        rcases ys.eq_nil_or_concat with rfl | ⟨ys', y, rfl⟩
        · exact (snoc_inj hsplit).2
        · simp only [List.concat_eq_append] at hsplit hys
          rw [show xs ++ im :: (ys' ++ [y]) = (xs ++ im :: ys') ++ [y] by simp] at hsplit
          obtain ⟨-, rfl⟩ := snoc_inj hsplit
          exact absurd hI (hys m (by simp)).1
    · rw [if_neg hI]
      by_cases hU : m.role = "User"
      · rw [if_pos hU]
        constructor
        · intro h
          rcases hst : (scribe_process ms).1 with _ | im0 <;> rw [hst] at h <;> cases h
        · rintro ⟨xs, ys, hsplit, hrole, hys⟩
          exfalso
          rcases ys.eq_nil_or_concat with rfl | ⟨ys', y, rfl⟩
          · obtain ⟨-, hmi⟩ := snoc_inj hsplit
            rw [hmi, hrole] at hU
            exact absurd hU (by decide)
          · simp only [List.concat_eq_append] at hsplit hys
            rw [show xs ++ im :: (ys' ++ [y]) = (xs ++ im :: ys') ++ [y] by simp] at hsplit
            obtain ⟨-, rfl⟩ := snoc_inj hsplit
            exact absurd hU (hys m (by simp)).2
      · rw [if_neg hU]
        simp only []
        rw [ih]
        constructor
        · rintro ⟨xs, ys, rfl, hrole, hys⟩
          refine ⟨xs, ys ++ [m], by simp, hrole, ?_⟩
          intro q hq
          rcases List.mem_append.mp hq with hq | hq
          · exact hys q hq
          · rw [List.mem_singleton.mp hq]
            exact ⟨hI, hU⟩
        · rintro ⟨xs, ys, hsplit, hrole, hys⟩
          rcases ys.eq_nil_or_concat with rfl | ⟨ys', y, rfl⟩
          · obtain ⟨-, hmi⟩ := snoc_inj hsplit
            rw [hmi] at hI
            exact absurd hrole hI
          · simp only [List.concat_eq_append] at hsplit hys
            rw [show xs ++ im :: (ys' ++ [y]) = (xs ++ im :: ys') ++ [y] by simp] at hsplit
            obtain ⟨rfl, rfl⟩ := snoc_inj hsplit
            exact ⟨xs, ys', rfl, hrole, fun q hq => hys q (by simp [hq])⟩

/-- C10 — Q/A pairing in `SessionScribe.on_message`: a User message spawns
exactly one Q/A pair when an Interviewer message is pending (clearing the
pending slot, so each Interviewer message is paired at most once) and
spawns nothing otherwise; non-User messages never spawn pairs; and the
pending slot holds `im` exactly when `im` is an Interviewer message after
which no Interviewer or User message has arrived. -/
theorem scribe_qa_pairing (ms : List Message) :
    (∀ u, u.role = "User" →
      (scribe_process (ms ++ [u])).2 =
        (scribe_process ms).2 ++
          (match (scribe_process ms).1 with
           | some im => [(im, u)]
           | none => []) ∧
      (scribe_process (ms ++ [u])).1 = none) ∧
    (∀ m, m.role ≠ "User" →
      (scribe_process (ms ++ [m])).2 = (scribe_process ms).2) ∧
    ∀ im, (scribe_process ms).1 = some im ↔
      ∃ xs ys, ms = xs ++ im :: ys ∧ im.role = "Interviewer" ∧
        ∀ m ∈ ys, m.role ≠ "Interviewer" ∧ m.role ≠ "User" := by
  refine ⟨?_, ?_, fun im => scribe_state_char ms im⟩
  · intro u hu
    rw [scribe_process_append]
    unfold scribe_step scribe_on_message
    rw [hu]
    rw [if_neg (by decide), if_pos rfl]
    rcases hst : (scribe_process ms).1 with _ | im
    · exact ⟨rfl, rfl⟩
    · exact ⟨rfl, rfl⟩
  · intro m hm
    rw [scribe_process_append]
    unfold scribe_step scribe_on_message
    by_cases hI : m.role = "Interviewer"
    · rw [if_pos hI]; simp
    · rw [if_neg hI, if_neg hm]; simp

/-- A concrete Interviewer question. -/
def imsg : Message :=
  { mid := "i1", mtype := .conversation, role := "Interviewer",
    content := "Where were you born?", timestamp := "t1" }

/-- A concrete User answer. -/
def umsg : Message :=
  { mid := "u1", mtype := .conversation, role := "User",
    content := "In Omaha.", timestamp := "t2" }

/-- C10 witness — on the stream Interviewer-then-User, exactly the pair
`(imsg, umsg)` is spawned and the pending slot is cleared. -/
theorem scribe_qa_pairing_witness :
    (scribe_process ([imsg] ++ [umsg])).2 = [(imsg, umsg)] ∧
    (scribe_process ([imsg] ++ [umsg])).1 = none := by
  have h := (scribe_qa_pairing [imsg]).1 umsg rfl
  exact ⟨h.1.trans rfl, h.2⟩

/-- Exit analysis of the bounded wait loop: a loop that performed `n`
sleeps stopped either because the flag read false at check `n` (every
earlier check saw the flag true and an elapsed time within 300 s), or
because the elapsed time after sleep `n - 1` exceeded 300 s. -/
theorem waitLoop_exit (obs : List (Bool × ℚ)) (n : Nat)
    (h : waitLoop obs = some n) :
    ((∃ p, obs.get? n = some p ∧ p.1 = false) ∧
      ∀ j, j < n → ∀ q, obs.get? j = some q → q.1 = true ∧ q.2 ≤ 300) ∨
    (1 ≤ n ∧ (∃ p, obs.get? (n - 1) = some p ∧ p.1 = true ∧ p.2 > 300) ∧
      ∀ j, j < n - 1 → ∀ q, obs.get? j = some q → q.1 = true ∧ q.2 ≤ 300) := by
  induction obs generalizing n with
  | nil => cases h
  | cons hd rest ih =>
    obtain ⟨f, t⟩ := hd
    unfold waitLoop at h
    by_cases hf : f = false
    · rw [if_pos hf] at h
      obtain rfl : n = 0 := by simpa using h.symm
      exact Or.inl ⟨⟨(f, t), rfl, hf⟩, fun j hj => absurd hj (by omega)⟩
    · rw [if_neg hf] at h
      have hft : f = true := by
        cases f
        · exact absurd rfl hf
        · rfl
      by_cases ht : t > 300
      · rw [if_pos ht] at h
        obtain rfl : n = 1 := by simpa using h.symm
        exact Or.inr ⟨le_refl 1, ⟨(f, t), rfl, hft, ht⟩,
          fun j hj => absurd hj (by omega)⟩
      · rw [if_neg ht] at h
        obtain ⟨m, hm, rfl⟩ : ∃ m, waitLoop rest = some m ∧ n = m + 1 := by
          rcases hw : waitLoop rest with _ | m
          · rw [hw] at h; cases h
          · rw [hw] at h
            exact ⟨m, rfl, by simpa using h.symm⟩
        have hhead : ∀ q, ((f, t) :: rest).get? 0 = some q → q.1 = true ∧ q.2 ≤ 300 := by
          intro q hq
          obtain rfl : (f, t) = q := by simpa using hq
          exact ⟨hft, le_of_not_lt ht⟩
        rcases ih m hm with ⟨⟨p, hp, hpf⟩, hbound⟩ | ⟨h1, ⟨p, hp, hpf, hpt⟩, hbound⟩
        · refine Or.inl ⟨⟨p, by simpa using hp, hpf⟩, ?_⟩
          intro j hj q hq
          cases j with
          | zero => exact hhead q hq
          | succ j' => exact hbound j' (by omega) q (by simpa using hq)
        · refine Or.inr ⟨by omega, ⟨p, ?_, hpf, hpt⟩, ?_⟩
          · have : m + 1 - 1 = (m - 1) + 1 := by omega
            rw [this]
            simpa using hp
          · intro j hj q hq
            cases j with
            | zero => exact hhead q hq
            | succ j' =>
              refine hbound j' (by omega) q (by simpa using hq)

/-- Invariant of the task counter: the counter never goes negative and the
`processing_in_progress` flag is set exactly while the counter is
positive. -/
theorem taskCounter_flag_iff_positive (ops : List TaskOp) :
    0 ≤ (applyTaskOps ops).pendingTasks ∧
      ((applyTaskOps ops).processingInProgress = true ↔
        0 < (applyTaskOps ops).pendingTasks) := by
  suffices haux : ∀ (l : List TaskOp) (c : TaskCounter),
      0 ≤ c.pendingTasks → (c.processingInProgress = true ↔ 0 < c.pendingTasks) →
      0 ≤ (l.foldl
        (fun c op =>
          match op with
          | .inc => increment_pending_tasks c
          | .dec => decrement_pending_tasks c) c).pendingTasks ∧
      ((l.foldl
        (fun c op =>
          match op with
          | .inc => increment_pending_tasks c
          | .dec => decrement_pending_tasks c) c).processingInProgress = true ↔
        0 < (l.foldl
        (fun c op =>
          match op with
          | .inc => increment_pending_tasks c
          | .dec => decrement_pending_tasks c) c).pendingTasks) by
    exact haux ops { pendingTasks := 0, processingInProgress := false }
      (by simp) (by simp)
  intro l
  induction l with
  | nil => intro c h1 h2; exact ⟨h1, h2⟩
  | cons op rest ih =>
    intro c h1 h2
    simp only [List.foldl_cons]
    cases op
    · refine ih (increment_pending_tasks c) ?_ ?_
      · unfold increment_pending_tasks; simp; omega
      · unfold increment_pending_tasks; simp; omega
    · refine ih (decrement_pending_tasks c) ?_ ?_ <;>
        (unfold decrement_pending_tasks
         by_cases hp : c.pendingTasks - 1 ≤ 0)
      · rw [if_pos hp]
      · rw [if_neg hp]; simp; omega
      · rw [if_pos hp]; simp
      · rw [if_neg hp]
        simp only []
        rw [h2]
        omega

/-- C8 — `get_session_memories` with `clear_processed=True`: the returned
list is the selected memory list at the time of the call, the unprocessed
list is emptied, and the cumulative all-session list is untouched; the wait
loop stops as soon as the processing flag clears or the elapsed time
exceeds 300 seconds, and that flag is set exactly while the pending-task
counter is positive. -/
theorem get_session_memories_spec :
    (∀ (waitB incB : Bool) (obs : List (Bool × ℚ)) (st : ScribeMemories)
       (n : Nat) (mems : List Memory) (st' : ScribeMemories),
       get_session_memories true waitB incB obs st = some (n, mems, st') →
       mems = (if incB then st.allSessionMemories else st.newMemories) ∧
       st'.newMemories = [] ∧ st'.allSessionMemories = st.allSessionMemories) ∧
    (∀ obs n, waitLoop obs = some n →
      ((∃ p, obs.get? n = some p ∧ p.1 = false) ∧
        ∀ j, j < n → ∀ q, obs.get? j = some q → q.1 = true ∧ q.2 ≤ 300) ∨
      (1 ≤ n ∧ (∃ p, obs.get? (n - 1) = some p ∧ p.1 = true ∧ p.2 > 300) ∧
        ∀ j, j < n - 1 → ∀ q, obs.get? j = some q → q.1 = true ∧ q.2 ≤ 300)) ∧
    ∀ ops : List TaskOp, 0 ≤ (applyTaskOps ops).pendingTasks ∧
      ((applyTaskOps ops).processingInProgress = true ↔
        0 < (applyTaskOps ops).pendingTasks) := by
  refine ⟨?_, waitLoop_exit, taskCounter_flag_iff_positive⟩
  intro waitB incB obs st n mems st' h
  unfold get_session_memories at h
  rcases hw : (if waitB then waitLoop obs else some 0) with _ | sleeps
  · rw [hw] at h; cases h
  · rw [hw] at h
    simp only [Option.some.injEq, Prod.mk.injEq] at h
    obtain ⟨-, hm, hst⟩ := h
    subst hm hst
    exact ⟨rfl, rfl, rfl⟩

/-- A concrete memory record. -/
def mem1 : Memory :=
  { mid := "MEM_1", title := "Birthplace", text := "Born in Omaha",
    importance := 5, sessionId := 1 }

/-- C8 witness — a concrete call with one pending observation returns the
unprocessed list, drains it, keeps the cumulative list; and after one
increment/decrement pair the flag matches the zero counter. -/
theorem get_session_memories_spec_witness :
    ([mem1] = (if (false : Bool) then ([mem1] : List Memory) else [mem1]) ∧
      (⟨[], [mem1]⟩ : ScribeMemories).newMemories = [] ∧
      (⟨[], [mem1]⟩ : ScribeMemories).allSessionMemories = [mem1]) ∧
    ((applyTaskOps [.inc, .dec]).processingInProgress = true ↔
      0 < (applyTaskOps [.inc, .dec]).pendingTasks) := by
  refine ⟨?_, (get_session_memories_spec.2.2 [.inc, .dec]).2⟩
  exact get_session_memories_spec.1 true false [(true, 100), (false, 150)]
    ⟨[mem1], [mem1]⟩ 1 [mem1] ⟨[], [mem1]⟩ rfl

/-- The versions that `_get_next_version` actually collects: every
`biography_*.json` file whose mangled stem parses as a Python int. -/
def codeVersions (files : List String) : List Int :=
  (files.filter
    (fun f => pyStartsWith f "biography_" && pyEndsWith f ".json")).filterMap
    (fun f => pyInt (versionStem f))

theorem get_next_version_eq (files : List String) :
    get_next_version files =
      match codeVersions files with
      | [] => 1
      | v :: vs => (vs.foldl max v) + 1 := by
  unfold get_next_version codeVersions
  cases hb : files.filter
      (fun f => pyStartsWith f "biography_" && pyEndsWith f ".json") with
  | nil => simp
  | cons f fs => simp

theorem foldl_max_spec (v : Int) (vs : List Int) :
    v ≤ vs.foldl max v ∧ (∀ x ∈ vs, x ≤ vs.foldl max v) ∧
      (vs.foldl max v = v ∨ vs.foldl max v ∈ vs) := by
  induction vs generalizing v with
  | nil => simp
  | cons w ws ih =>
    simp only [List.foldl_cons]
    obtain ⟨h1, h2, h3⟩ := ih (max v w)
    refine ⟨le_trans (le_max_left v w) h1, ?_, ?_⟩
    · intro x hx
      rcases List.mem_cons.mp hx with rfl | hx
      · exact le_trans (le_max_right v x) h1
      · exact h2 x hx
    · rcases h3 with h3 | h3
      · rcases max_choice v w with hm | hm
        · exact Or.inl (h3.trans hm)
        · refine Or.inr ?_
          rw [h3, hm]
          exact List.mem_cons_self w ws
      · exact Or.inr (List.mem_cons.mpr (Or.inr h3))

/-- C6 — amended: `_get_next_version` returns `max + 1` over the versions
it parses (where a filename's stem is obtained by deleting every occurrence
of `biography_` and `.json`, and parsed as a Python int), and `1` when
nothing parses; every parsed version is strictly below the result and the
result is one above a parsed version. -/
theorem get_next_version_max_plus_one (files : List String) :
    (codeVersions files = [] → get_next_version files = 1) ∧
    (∀ v ∈ codeVersions files, v < get_next_version files) ∧
    (codeVersions files ≠ [] → get_next_version files - 1 ∈ codeVersions files) := by
  cases hcv : codeVersions files with
  | nil =>
    rw [get_next_version_eq, hcv]
    exact ⟨fun _ => rfl, by simp, fun hne => absurd rfl hne⟩
  | cons v vs =>
    rw [get_next_version_eq, hcv]
    simp only []
    obtain ⟨h1, h2, h3⟩ := foldl_max_spec v vs
    refine ⟨?_, ?_, ?_⟩
    · intro hh; cases hh
    · intro x hx
      rcases List.mem_cons.mp hx with rfl | hx
      · exact lt_of_le_of_lt h1 (lt_add_one _)
      · exact lt_of_le_of_lt (h2 x hx) (lt_add_one _)
    · intro _
      have : vs.foldl max v + 1 - 1 = vs.foldl max v := by omega
      rw [this]
      rcases h3 with h3 | h3
      · rw [h3]; exact List.mem_cons.mpr (Or.inl rfl)
      · exact List.mem_cons.mpr (Or.inr h3)

/-- C6 counterexample — the file `biography_2.json.json` is named
`biography_<V>.json` for the non-integer `V = "2.json"`, so the claim says
it is ignored (next version 1); the double `replace` in the code strips
both `.json` occurrences and counts it as version 2, yielding 3. -/
theorem get_next_version_stem_counterexample :
    get_next_version ["biography_2.json.json"] = 3 ∧
    claimNextVersion ["biography_2.json.json"] = 1 ∧
    get_next_version ["biography_2.json.json"] ≠
      claimNextVersion ["biography_2.json.json"] :=
  ⟨rfl, rfl, by decide⟩

/-- C6 witness — a directory with versions 1 and 7 (and junk) gets next
version 8 = max + 1. -/
theorem get_next_version_max_plus_one_witness :
    (7 : Int) < get_next_version ["biography_1.json", "biography_7.json", "notes.txt"] ∧
    get_next_version ["biography_1.json", "biography_7.json", "notes.txt"] - 1 ∈
      codeVersions ["biography_1.json", "biography_7.json", "notes.txt"] :=
  ⟨(get_next_version_max_plus_one _).2.1 7 (by decide),
   (get_next_version_max_plus_one _).2.2 (by decide)⟩

theorem insertStable_perm (p : (String × Sec) × List Nat)
    (l : List ((String × Sec) × List Nat)) : (insertStable p l).Perm (p :: l) := by
  induction l with
  | nil => exact List.Perm.refl _
  | cons q qs ih =>
    unfold insertStable
    by_cases hlt : keyLt p.2 q.2 = true
    · rw [if_pos hlt]
    · rw [if_neg hlt]
      exact (ih.cons q).trans (List.Perm.swap p q qs)

theorem foldl_insertStable_perm (l acc : List ((String × Sec) × List Nat)) :
    (l.foldl (fun acc p => insertStable p acc) acc).Perm (l ++ acc) := by
  induction l generalizing acc with
  | nil => simp
  | cons p ps ih =>
    simp only [List.foldl_cons, List.cons_append]
    refine (ih (insertStable p acc)).trans ?_
    refine (List.Perm.append_left ps (insertStable_perm p acc)).trans ?_
    exact List.perm_middle

theorem attachKeys_map_fst (l : List (String × Sec))
    (keyed : List ((String × Sec) × List Nat)) (h : attachKeys l = .ok keyed) :
    keyed.map (fun p => p.1) = l := by
  induction l generalizing keyed with
  | nil =>
    cases h
    rfl
  | cons q rest ih =>
    obtain ⟨k, v⟩ := q
    unfold attachKeys at h
    rcases hk : sortKey k with e | key
    · rw [hk] at h; cases h
    · rw [hk] at h
      rcases ha : attachKeys rest with e | tail
      · rw [ha] at h; cases h
      · rw [ha] at h
        cases h
        simp [ih tail ha]

theorem sortKey_ok_of_splitWs (k : String) (h : pySplitWs k ≠ []) :
    ∃ key, sortKey k = .ok key := by
  unfold sortKey
  rcases hs : pySplitWs k with _ | ⟨w, ws⟩
  · exact absurd hs h
  · exact ⟨_, rfl⟩

theorem attachKeys_ok (l : List (String × Sec))
    (h : ∀ q ∈ l, pySplitWs q.1 ≠ []) :
    ∃ keyed, attachKeys l = .ok keyed := by
  induction l with
  | nil => exact ⟨[], rfl⟩
  | cons q rest ih =>
    obtain ⟨k, v⟩ := q
    obtain ⟨key, hk⟩ := sortKey_ok_of_splitWs k (h (k, v) (List.mem_cons_self _ _))
    obtain ⟨tail, ht⟩ := ih (fun q hq => h q (List.mem_cons.mpr (Or.inr hq)))
    exact ⟨((k, v), key) :: tail, by unfold attachKeys; rw [hk, ht]⟩

theorem sort_sections_perm (l sorted : List (String × Sec))
    (h : sort_sections l = .ok sorted) : sorted.Perm l := by
  unfold sort_sections at h
  rcases ha : attachKeys l with e | keyed
  · rw [ha] at h; cases h
  · rw [ha] at h
    cases h
    have hperm := foldl_insertStable_perm keyed []
    rw [List.append_nil] at hperm
    have := hperm.map (fun p => p.1)
    rw [attachKeys_map_fst l keyed ha] at this
    exact this

theorem sort_sections_ok (l : List (String × Sec))
    (h : ∀ q ∈ l, pySplitWs q.1 ≠ []) :
    ∃ sorted, sort_sections l = .ok sorted ∧ sorted.Perm l := by
  obtain ⟨keyed, hk⟩ := attachKeys_ok l h
  refine ⟨_, by unfold sort_sections; rw [hk], ?_⟩
  exact sort_sections_perm l _ (by unfold sort_sections; rw [hk])

theorem mem_dictSet_self (l : List (String × Sec)) (k : String) (v : Sec) :
    (k, v) ∈ dictSet l k v := by
  induction l with
  | nil => exact List.mem_cons_self _ _
  | cons q rest ih =>
    obtain ⟨k', v'⟩ := q
    unfold dictSet
    by_cases hk : k' = k
    · rw [if_pos hk]; exact List.mem_cons_self _ _
    · rw [if_neg hk]; exact List.mem_cons.mpr (Or.inr ih)

theorem mem_dictSet (l : List (String × Sec)) (k : String) (v : Sec)
    (q : String × Sec) (hq : q ∈ dictSet l k v) : q = (k, v) ∨ q ∈ l := by
  induction l with
  | nil =>
    unfold dictSet at hq
    exact Or.inl (List.mem_singleton.mp hq)
  | cons p rest ih =>
    obtain ⟨k', v'⟩ := p
    unfold dictSet at hq
    by_cases hk : k' = k
    · rw [if_pos hk] at hq
      rcases List.mem_cons.mp hq with h | h
      · exact Or.inl h
      · exact Or.inr (List.mem_cons.mpr (Or.inr h))
    · rw [if_neg hk] at hq
      rcases List.mem_cons.mp hq with h | h
      · exact Or.inr (List.mem_cons.mpr (Or.inl h))
      · rcases ih h with h' | h'
        · exact Or.inl h'
        · exact Or.inr (List.mem_cons.mpr (Or.inr h'))

theorem keys_dictSet_sub (l : List (String × Sec)) (k : String) (v : Sec)
    (x : String) (hx : x ∈ (dictSet l k v).map Prod.fst) :
    x = k ∨ x ∈ l.map Prod.fst := by
  obtain ⟨q, hq, rfl⟩ := List.mem_map.mp hx
  rcases mem_dictSet l k v q hq with rfl | hq'
  · exact Or.inl rfl
  · exact Or.inr (List.mem_map_of_mem Prod.fst hq')

theorem nodup_keys_dictSet (l : List (String × Sec)) (k : String) (v : Sec)
    (h : (l.map Prod.fst).Nodup) : ((dictSet l k v).map Prod.fst).Nodup := by
  induction l with
  | nil => simp [dictSet]
  | cons q rest ih =>
    obtain ⟨k', v'⟩ := q
    rw [List.map_cons] at h
    obtain ⟨h1, h2⟩ := List.nodup_cons.mp h
    unfold dictSet
    by_cases hk : k' = k
    · rw [if_pos hk, List.map_cons]
      exact List.nodup_cons.mpr ⟨by rw [← hk]; exact h1, h2⟩
    · rw [if_neg hk, List.map_cons]
      refine List.nodup_cons.mpr ⟨?_, ih h2⟩
      intro hmem
      rcases keys_dictSet_sub rest k v k' hmem with h' | h'
      · exact hk h'
      · exact h1 h'

theorem dictGet_eq_none_of_not_mem (l : List (String × Sec)) (k : String)
    (h : k ∉ l.map Prod.fst) : dictGet l k = none := by
  induction l with
  | nil => rfl
  | cons q rest ih =>
    obtain ⟨k', v'⟩ := q
    unfold dictGet
    rw [if_neg (fun hk => h (by rw [List.map_cons, hk]; exact List.mem_cons_self _ _))]
    exact ih (fun hm => h (by rw [List.map_cons]; exact List.mem_cons.mpr (Or.inr hm)))

theorem dictGet_eq_some_of_mem (l : List (String × Sec)) (k : String) (v : Sec)
    (hm : (k, v) ∈ l) (hnd : (l.map Prod.fst).Nodup) : dictGet l k = some v := by
  induction l with
  | nil => cases hm
  | cons q rest ih =>
    obtain ⟨k', v'⟩ := q
    rw [List.map_cons] at hnd
    obtain ⟨hnd1, hnd2⟩ := List.nodup_cons.mp hnd
    rcases List.mem_cons.mp hm with h | h
    · cases h
      unfold dictGet
      rw [if_pos rfl]
    · unfold dictGet
      rw [if_neg ?_]
      · exact ih h hnd2
      · intro hk
        subst hk
        exact hnd1 (List.mem_map.mpr ⟨(k', v), h, rfl⟩)

theorem subsections_withSubsections (s : Sec) (subs : List (String × Sec)) :
    (s.withSubsections subs).subsections = subs := by cases s; rfl

/-- A format-valid single-segment path has a first word (so its sort key
computes without an `IndexError`). -/
theorem first_word_of_valid (p : String) (hp : p ≠ "")
    (hsplit : pySplitChar p '/' = [p])
    (hv : is_valid_path_format p = .ok true) : pySplitWs p ≠ [] := by
  intro hnil
  unfold is_valid_path_format at hv
  rw [if_neg hp, hsplit] at hv
  rw [if_neg (by simp)] at hv
  simp only [List.headD_cons] at hv
  rw [hnil] at hv
  cases hv

/-- C1 — amended: `add_section` validates only the FORMAT of the path; it
never inspects which sibling numbers exist, so a well-formatted top-level
path is accepted and inserted regardless of gaps in the numbering. -/
theorem add_section_no_sequential_check (root : Sec) (p c now : String)
    (uuids : List String)
    (hp : p ≠ "") (hsplit : pySplitChar p '/' = [p])
    (hv : is_valid_path_format p = .ok true)
    (hkeys : ∀ q ∈ root.subsections, pySplitWs q.1 ≠ []) :
    ∃ subs', add_section root p c uuids now =
        .ok (Sec.create (uuids.headD "uuid") now p c, root.withSubsections subs') ∧
      (p, Sec.create (uuids.headD "uuid") now p c) ∈ subs' := by
  have hkeys' : ∀ q ∈ dictSet root.subsections p
      (Sec.create (uuids.headD "uuid") now p c), pySplitWs q.1 ≠ [] := by
    intro q hq
    rcases mem_dictSet _ _ _ q hq with rfl | hq'
    · exact first_word_of_valid p hp hsplit hv
    · exact hkeys q hq'
  obtain ⟨sorted, hs, hperm⟩ := sort_sections_ok _ hkeys'
  refine ⟨sorted, ?_, hperm.mem_iff.mpr (mem_dictSet_self _ _ _)⟩
  unfold add_section
  rw [if_neg hp, hv]
  simp only []
  rw [hsplit]
  unfold addWalk
  simp only []
  rw [hs]

/-- C1 counterexample — scenario 2 of the spec: with only `1 Early Life`
present, `add_section("3 Career", …)` does NOT fail; it succeeds and the
tree now holds both sections. -/
theorem add_section_gap_accepted_counterexample :
    add_section sampleRoot "3 Career" "Career content" ["id2"] "t2" =
      .ok (.node "id2" "3 Career" "Career content" "t2" "t2" [] [],
        .node "u0" "Biography of user" "" "t0" "t0" []
          [("1 Early Life",
            .node "id1" "1 Early Life" "hello [MEM_1]" "t1" "t1" ["MEM_1"] []),
           ("3 Career",
            .node "id2" "3 Career" "Career content" "t2" "t2" [] [])]) := rfl

/-- C1 witness — the amended theorem applied to the concrete scenario. -/
theorem add_section_no_sequential_check_witness :
    ∃ subs', add_section sampleRoot "3 Career" "c" ["id2"] "t2" =
        .ok (Sec.create "id2" "t2" "3 Career" "c",
          sampleRoot.withSubsections subs') ∧
      ("3 Career", Sec.create "id2" "t2" "3 Career" "c") ∈ subs' :=
  add_section_no_sequential_check sampleRoot "3 Career" "c" "t2" ["id2"]
    (by decide) rfl rfl (by decide)

/-- C5 — amended: `add_section(P, "")` on an existing P is NOT a no-op: it
replaces the stored section with a freshly created one (empty content,
empty memory list, no subsections, a new identifier), discarding whatever
was there. -/
theorem add_section_existing_path_replaces (root : Sec) (p : String) (old : Sec)
    (uuids : List String) (now : String)
    (hp : p ≠ "") (hsplit : pySplitChar p '/' = [p])
    (hv : is_valid_path_format p = .ok true)
    (hold : dictGet root.subsections p = some old)
    (hnd : (root.subsections.map Prod.fst).Nodup)
    (hkeys : ∀ q ∈ root.subsections, pySplitWs q.1 ≠ []) :
    ∃ subs', add_section root p "" uuids now =
        .ok (Sec.create (uuids.headD "uuid") now p "",
          root.withSubsections subs') ∧
      getAt (root.withSubsections subs') [p] =
        some (Sec.create (uuids.headD "uuid") now p "") ∧
      (Sec.create (uuids.headD "uuid") now p "").content = "" ∧
      (Sec.create (uuids.headD "uuid") now p "").memoryIds = [] ∧
      (Sec.create (uuids.headD "uuid") now p "").subsections = [] := by
  obtain ⟨sorted, hrun, hmem⟩ :=
    add_section_no_sequential_check root p "" now uuids hp hsplit hv hkeys
  have hndset := nodup_keys_dictSet root.subsections p
    (Sec.create (uuids.headD "uuid") now p "") hnd
  have hperm : sorted.Perm
      (dictSet root.subsections p (Sec.create (uuids.headD "uuid") now p "")) := by
    refine sort_sections_perm _ _ ?_
    have hkeys' : ∀ q ∈ dictSet root.subsections p
        (Sec.create (uuids.headD "uuid") now p ""), pySplitWs q.1 ≠ [] := by
      intro q hq
      rcases mem_dictSet _ _ _ q hq with rfl | hq'
      · exact first_word_of_valid p hp hsplit hv
      · exact hkeys q hq'
    obtain ⟨sorted', hs', hperm'⟩ := sort_sections_ok _ hkeys'
    -- identify sorted with sorted' through the run equation
    unfold add_section at hrun
    rw [if_neg hp, hv] at hrun
    simp only [] at hrun
    rw [hsplit] at hrun
    unfold addWalk at hrun
    simp only [] at hrun
    rw [hs'] at hrun
    simp only [Except.ok.injEq, Prod.mk.injEq] at hrun
    have : root.withSubsections sorted' = root.withSubsections sorted := hrun.2
    have := congrArg Sec.subsections this
    rw [subsections_withSubsections, subsections_withSubsections] at this
    rw [← this]
    exact hs'
  have hndsorted : (sorted.map Prod.fst).Nodup :=
    ((hperm.map Prod.fst).nodup_iff).mpr hndset
  have hget : dictGet sorted p = some (Sec.create (uuids.headD "uuid") now p "") :=
    dictGet_eq_some_of_mem _ _ _ (hperm.mem_iff.mpr (mem_dictSet_self _ _ _)) hndsorted
  refine ⟨sorted, hrun, ?_, rfl, rfl, rfl⟩
  unfold getAt
  rw [subsections_withSubsections, hget]
  rfl

/-- C5 counterexample — `1 A` has content, a cited memory and a child
`1.1 B`; `add_section("1 A", "")` replaces it with a fresh empty section,
so the child becomes unreachable and the content is gone: the call is not
a no-op. -/
theorem add_section_existing_counterexample :
    add_section nestedRoot "1 A" "" ["id3"] "t3" =
      .ok (.node "id3" "1 A" "" "t3" "t3" [] [],
        .node "u0" "Biography of user" "" "t0" "t0" []
          [("1 A", .node "id3" "1 A" "" "t3" "t3" [] [])]) ∧
    (getAt nestedRoot ["1 A", "1.1 B"]).isSome = true ∧
    (getAt nestedRoot ["1 A"]).map Sec.content = some "a content [MEM_1]" ∧
    (getAt nestedRoot ["1 A"]).map Sec.memoryIds = some ["MEM_1"] :=
  ⟨rfl, rfl, rfl, rfl⟩

/-- C5 witness — the amended theorem applied to `nestedRoot` and the
existing path `1 A`. -/
theorem add_section_existing_path_replaces_witness :
    ∃ subs', add_section nestedRoot "1 A" "" ["id3"] "t3" =
        .ok (Sec.create "id3" "t3" "1 A" "", nestedRoot.withSubsections subs') ∧
      getAt (nestedRoot.withSubsections subs') ["1 A"] =
        some (Sec.create "id3" "t3" "1 A" "") ∧
      (Sec.create "id3" "t3" "1 A" "").content = "" ∧
      (Sec.create "id3" "t3" "1 A" "").memoryIds = [] ∧
      (Sec.create "id3" "t3" "1 A" "").subsections = [] :=
  add_section_existing_path_replaces nestedRoot "1 A"
    (.node "id1" "1 A" "a content [MEM_1]" "t1" "t1" ["MEM_1"]
      [("1.1 B", .node "id2" "1.1 B" "b content" "t2" "t2" [] [])])
    ["id3"] "t3" (by decide) rfl rfl rfl (by decide) (by decide)

theorem getAt_append (s : Sec) (a b : List String) :
    getAt s (a ++ b) = (getAt s a).bind (fun u => getAt u b) := by
  induction a generalizing s with
  | nil => rfl
  | cons k a' ih =>
    show getAt s (k :: (a' ++ b)) = _
    rcases hd : dictGet s.subsections k with _ | c
    · simp [getAt, hd]
    · simp [getAt, hd, ih c]

theorem dictGet_map_modify (l : List (String × Sec)) (k k' : String)
    (g : Sec → Sec) :
    dictGet (l.map (fun q => if q.1 = k then (q.1, g q.2) else q)) k' =
      if k = k' then (dictGet l k').map g else dictGet l k' := by
  induction l with
  | nil => by_cases hkk : k = k' <;> simp [dictGet, hkk]
  | cons q rest ih =>
    obtain ⟨k1, v1⟩ := q
    rw [List.map_cons]
    have hhead : (if (k1, v1).1 = k then ((k1, v1).1, g (k1, v1).2) else (k1, v1)) =
        (if k1 = k then (k1, g v1) else (k1, v1)) := rfl
    rw [hhead]
    by_cases h1 : k1 = k
    · rw [if_pos h1]
      by_cases h2 : k1 = k'
      · have hkk : k = k' := h1.symm.trans h2
        rw [if_pos hkk]
        simp only [dictGet]
        rw [if_pos h2, if_pos h2]
        rfl
      · have hkk : ¬ k = k' := fun hh => h2 (h1.trans hh)
        rw [if_neg hkk]
        simp only [dictGet]
        rw [if_neg h2, if_neg h2]
        have hih := ih
        rw [if_neg hkk] at hih
        exact hih
    · rw [if_neg h1]
      by_cases h2 : k1 = k'
      · have hkk : ¬ k = k' := fun hh => h1 (h2.trans hh.symm)
        rw [if_neg hkk]
        simp only [dictGet]
        rw [if_pos h2, if_pos h2]
      · simp only [dictGet]
        rw [if_neg h2, if_neg h2]
        exact ih

theorem getAt_modifyAt_append (s : Sec) (a b : List String) (f : Sec → Sec) :
    getAt (modifyAt s (a ++ b) f) a = (getAt s a).map (fun u => modifyAt u b f) := by
  induction a generalizing s with
  | nil => rfl
  | cons k a' ih =>
    show getAt (modifyAt s (k :: (a' ++ b)) f) (k :: a') = _
    have hmod : modifyAt s (k :: (a' ++ b)) f =
        s.withSubsections (s.subsections.map
          (fun q => if q.1 = k then (q.1, modifyAt q.2 (a' ++ b) f) else q)) := rfl
    rw [hmod]
    simp only [getAt]
    rw [subsections_withSubsections,
      dictGet_map_modify s.subsections k k (fun u => modifyAt u (a' ++ b) f),
      if_pos rfl]
    rcases hd : dictGet s.subsections k with _ | c
    · rfl
    · exact ih c

theorem dictGet_dictDel_self (l : List (String × Sec)) (k : String)
    (hnd : (l.map Prod.fst).Nodup) : dictGet (dictDel l k) k = none := by
  induction l with
  | nil => rfl
  | cons q rest ih =>
    obtain ⟨k1, v1⟩ := q
    rw [List.map_cons] at hnd
    obtain ⟨hnd1, hnd2⟩ := List.nodup_cons.mp hnd
    unfold dictDel
    by_cases h1 : k1 = k
    · rw [if_pos h1]
      subst h1
      exact dictGet_eq_none_of_not_mem rest k1 hnd1
    · rw [if_neg h1]
      unfold dictGet
      rw [if_neg h1]
      exact ih hnd2

theorem locate_path_none (root : Sec) (p : String) :
    locate root (some p) none = locateByPath root p := rfl

/-- C3 — amended: `delete_section` on a section found by path removes the
whole entry from its parent regardless of children: afterwards neither the
section's path nor any extension of it (its descendants) resolves.  The
children-preserving, content-clearing behavior of the claim does not
exist. -/
theorem delete_section_removes_subtree (root sec parent : Sec) (p : String)
    (kp : List String) (last : String)
    (hp : p ≠ "")
    (hloc : locateByPath root p = .ok (some kp))
    (hsec : getAt root kp = some sec)
    (hchild : sec.subsections ≠ [])
    (hkp : kp = kp.dropLast ++ [last])
    (hlast : last = sec.title)
    (hfp : find_parent (modifyAt root kp stripContentF) sec.title =
      some kp.dropLast)
    (hpar : getAt (modifyAt root kp stripContentF) kp.dropLast = some parent)
    (hnd : (parent.subsections.map Prod.fst).Nodup) :
    ∃ root', delete_section root (some p) none = .ok (true, root') ∧
      getAt root' kp = none ∧
      ∀ rest, getAt root' (kp ++ rest) = none := by
  have hkpne : kp ≠ [] := by
    rw [hkp]
    simp
  have hgone : ∀ r', r' = modifyAt (modifyAt root kp stripContentF) kp.dropLast
      (fun par => par.withSubsections (dictDel par.subsections sec.title)) →
      getAt r' kp = none := by
    intro r' hr'
    conv_lhs => rw [hkp]
    rw [getAt_append]
    have hstep : getAt r' kp.dropLast = some (parent.withSubsections
        (dictDel parent.subsections sec.title)) := by
      rw [hr']
      have hma := getAt_modifyAt_append (modifyAt root kp stripContentF)
        kp.dropLast []
        (fun par => par.withSubsections (dictDel par.subsections sec.title))
      rw [List.append_nil] at hma
      rw [hma, hpar]
      rfl
    rw [hstep]
    show getAt (parent.withSubsections (dictDel parent.subsections sec.title))
      [last] = none
    simp only [getAt]
    rw [subsections_withSubsections, hlast, dictGet_dictDel_self _ _ hnd]
  refine ⟨modifyAt (modifyAt root kp stripContentF) kp.dropLast
    (fun par => par.withSubsections (dictDel par.subsections sec.title)),
    ?_, hgone _ rfl, ?_⟩
  · unfold delete_section
    simp only []
    rw [if_neg (by simpa using hp), locate_path_none, hloc]
    simp only []
    rw [hsec]
    simp only []
    rw [if_neg hkpne, hfp]
  · intro rest
    rw [getAt_append, hgone _ rfl]
    rfl

/-- C3 counterexample — deleting `1 A`, which has content and the child
`1.1 B`, removes the entire node: the result tree has NO `1 A` section at
all, instead of a content-cleared node with `1.1 B` still addressable. -/
theorem delete_section_children_counterexample :
    delete_section nestedRoot (some "1 A") none =
      .ok (true, .node "u0" "Biography of user" "" "t0" "t0" [] []) ∧
    (getAt nestedRoot ["1 A"]).isSome = true ∧
    (getAt nestedRoot ["1 A", "1.1 B"]).isSome = true :=
  ⟨rfl, rfl, rfl⟩

/-- C3 witness — the amended theorem applied to `nestedRoot` and `1 A`. -/
theorem delete_section_removes_subtree_witness :
    ∃ root', delete_section nestedRoot (some "1 A") none = .ok (true, root') ∧
      getAt root' ["1 A"] = none ∧
      ∀ rest, getAt root' (["1 A"] ++ rest) = none :=
  delete_section_removes_subtree nestedRoot
    (.node "id1" "1 A" "a content [MEM_1]" "t1" "t1" ["MEM_1"]
      [("1.1 B", .node "id2" "1.1 B" "b content" "t2" "t2" [] [])])
    (modifyAt nestedRoot ["1 A"] stripContentF)
    "1 A" ["1 A"] "1 A" (by decide) rfl rfl (fun hh => List.noConfusion hh)
    rfl rfl rfl rfl (by decide)
